import Mathlib

set_option maxRecDepth 8000

/-!
A shallow embedding of `src/zid.py`.

A Zid is a 23-character, chronologically ordered string identifier.  The
Python source is a frozen dataclass `Zid` whose canonical state is the
string field `zid` (the `datetime` field is display-only and excluded from
comparison, so it is not modelled).  Machine integers are modelled as `Nat`;
Python `ValueError` is modelled as `Option`/`Except` failure.
-/

/-- Model of the source constant `_ALPHANUMERIC`.  The source computes
`''.join(sorted(string.ascii_letters + string.digits))` and its own comment
(line 18) pins the result to exactly this literal. -/
def ALPHANUMERIC : List Char :=
  "0123456789ABCDEFGHIJKLMNOPQRSTUVWXYZabcdefghijklmnopqrstuvwxyz".data

/-- Model of `_UUID_INDEX = -78`: the source addresses the insertion point of
the two fixed UUID bits as a negative bit-string index, i.e. 78 bits from the
least-significant end.  We keep the count of low bits as a `Nat`. -/
def UUID_LOW_BITS : Nat := 78

/-- Model of `_SIZE3 = 7 + 1` (7 characters per group, plus the separator). -/
def SIZE3 : Nat := 7 + 1

/-- Model of `_DIGIT_ALPHABETS`: for `digit` in `range(1, _SIZE3 * 3)` the
alphabet is `'_'` when `digit % _SIZE3 == 0` and the 62-character
alphanumeric alphabet otherwise.  23 per-position alphabets in total. -/
def DIGIT_ALPHABETS : List (List Char) :=
  (List.range' 1 (SIZE3 * 3 - 1)).map fun d =>
    if d % SIZE3 = 0 then ['_'] else ALPHANUMERIC

/-- Model of `_CARDINALITY`: `functools.reduce(operator.mul, ...)` over the
alphabet lengths (a product of a nonempty list, written as a fold from 1). -/
def CARDINALITY : Nat := (DIGIT_ALPHABETS.map List.length).foldl (· * ·) 1

/-- Model of `_SECONDS_PER_DAY`. -/
def SECONDS_PER_DAY : Nat := 60 * 60 * 24

/-- Model of `_NANOS_PER_SECOND`. -/
def NANOS_PER_SECOND : Nat := 10 ^ 9

/-- Model of `_NANOS_PER_DAY`. -/
def NANOS_PER_DAY : Nat := NANOS_PER_SECOND * SECONDS_PER_DAY

/-- Model of `_LEAP_DAYS_PER_400_YEARS`. -/
def LEAP_DAYS_PER_400_YEARS : Nat := (400 / 4) - (400 / 100) + (400 / 400)

/-- Model of `_DAYS_PER_400_YEARS`. -/
def DAYS_PER_400_YEARS : Nat := (365 * 400) + LEAP_DAYS_PER_400_YEARS

/-- Model of `_DAYS_BEFORE_EPOCH`. -/
def DAYS_BEFORE_EPOCH : Nat := (DAYS_PER_400_YEARS * 5) - (365 * 31) - 8

/-- Model of `_SECONDS_BEFORE_EPOCH`. -/
def SECONDS_BEFORE_EPOCH : Nat := SECONDS_PER_DAY * DAYS_BEFORE_EPOCH

/-- Model of `_DAYS_PER_9_999_YEARS`. -/
def DAYS_PER_9_999_YEARS : Nat := (DAYS_PER_400_YEARS * 10000 / 400) - 365 - 1

/-- Model of `_NANOS_PER_9_999_YEARS`. -/
def NANOS_PER_9_999_YEARS : Nat := NANOS_PER_DAY * DAYS_PER_9_999_YEARS

/-- Model of `_ZIDS_PER_NANO`. -/
def ZIDS_PER_NANO : Nat := (CARDINALITY / NANOS_PER_9_999_YEARS) + 1

/-- Model of the dataclass `Zid`.  Its canonical state is the `zid` string
(held as a character list); dataclass equality compares exactly this field
(the `datetime` field carries `compare=False`). -/
structure Zid where
  zid : List Char
deriving DecidableEq, Repr

/-- Model of Python `list.index` / `str.index` restricted to characters:
index of the first occurrence, or failure (`ValueError`) when absent. -/
def pyIndex : List Char → Char → Option Nat
  | [], _ => none
  | d :: rest, c => if d = c then some 0 else (pyIndex rest c).map (· + 1)

/-- Loop body of `Zid._toInt`: fold `value = value * len(alphabet) +
alphabet.index(digit)` over the zipped (character, alphabet) pairs, failing
(`ValueError`) when a character is not in its alphabet. -/
def toIntGo : List (Char × List Char) → Nat → Option Nat
  | [], value => some value
  | (c, a) :: rest, value =>
    match pyIndex a c with
    | some i => toIntGo rest (value * a.length + i)
    | none => none

/-- Model of `Zid._toInt` applied to a character list (Python `zip`
truncates to the shorter list, as `List.zip` does). -/
def toInt (s : List Char) : Option Nat := toIntGo (s.zip DIGIT_ALPHABETS) 0

/-- Loop of `Zid._valueToZid`: iterate over the given alphabets (the caller
passes `_DIGIT_ALPHABETS` reversed), at each step `(value, index) =
divmod(value, len(alphabet))`, appending `alphabet[index]`.  Returns the
appended characters in append order together with the final `value`. -/
def valueToZidGo : List (List Char) → Nat → (List Char × Nat)
  | [], value => ([], value)
  | a :: rest, value =>
    let step := valueToZidGo rest (value / a.length)
    (a.getD (value % a.length) ' ' :: step.1, step.2)

/-- Model of `Zid._valueToZid`: run the loop over `reversed(_DIGIT_ALPHABETS)`,
fail with the Y10K `ValueError` when a nonzero value remains, and otherwise
return the reversal of the accumulated digits.  (The `assert value >= 0` is
vacuous over `Nat`.) -/
def valueToZid (value : Nat) : Option (List Char) :=
  let step := valueToZidGo DIGIT_ALPHABETS.reverse value
  if step.2 = 0 then some step.1.reverse else none

/-- Model of `Zid._initFromZid`: reject strings whose length differs from
`len(_DIGIT_ALPHABETS)`; otherwise decode with `_toInt` (whose failure is a
`ValueError`) and store the string itself as the Zid.  The derived
`datetime` display string is not modelled. -/
def initFromZid (s : List Char) : Option Zid :=
  if s.length = DIGIT_ALPHABETS.length then (toInt s).map fun _ => ⟨s⟩
  else none

/-- Model of `Zid._initFromUuid` acting on the UUID's 128-bit integer `u`.
The source forms `bits = bin(u)[2:]` and requires `bits[-80:-78] == '11'`,
which holds exactly when the bits of `u` at positions 79 and 78 are both 1,
i.e. `u / 2^78 % 4 == 3` (for `u` shorter than 80 bits the slice is shorter
than two characters and the test fails, matching `u / 2^78 % 4 < 3`).  It
then deletes those two bits, `intValue = int(bits[:-80] + bits[-78:], 2) =
(u / 2^80) * 2^78 + u % 2^78`, and runs `_initFromZid(_valueToZid(intValue))`. -/
def initFromUuid (u : Nat) : Option Zid :=
  if u / 2 ^ UUID_LOW_BITS % 4 = 3 then
    (valueToZid ((u / 2 ^ (UUID_LOW_BITS + 2)) * 2 ^ UUID_LOW_BITS
      + u % 2 ^ UUID_LOW_BITS)).bind initFromZid
  else none

/-- Model of the `Zid.uuid` property on the decoded integer `v = _toInt()`.
The source takes `bin(v)` zero-filled to at least 78 bits and splices the two
characters `'11'` in front of the final 78 bits; numerically the resulting
UUID integer is `(v / 2^78) * 2^80 + 3 * 2^78 + v % 2^78`. -/
def uuidInt (v : Nat) : Nat :=
  (v / 2 ^ UUID_LOW_BITS) * 2 ^ (UUID_LOW_BITS + 2)
    + 3 * 2 ^ UUID_LOW_BITS + v % 2 ^ UUID_LOW_BITS

/-- Model of the `ValueError`s the module raises: `__post_init__` re-raises
any parse failure as `ValueError(f'Invalid zid: {zid!r}')` carrying the
stripped input string, while the Y10K error from `_valueToZid` escapes
`_initNew` unwrapped. -/
inductive ZidErr where
  | invalidZid (raw : List Char)
  | y10k
deriving DecidableEq, Repr

/-- Model of `Zid._secondsAndNanosToValue`: `nanos += _NANOS_PER_SECOND *
seconds`, then a draw from `randrange(start=_ZIDS_PER_NANO * nanos,
stop=_ZIDS_PER_NANO * (nanos + 1))`.  The random draw is modelled by the
offset `r` from `start`; theorems constrain `r < _ZIDS_PER_NANO` to match
the `randrange` bounds. -/
def secondsAndNanosToValue (seconds nanos r : Nat) : Nat :=
  ZIDS_PER_NANO * (nanos + NANOS_PER_SECOND * seconds) + r

/-- Model of `Zid._initNew` on a clock reading already split into whole
`seconds` and fractional `nanos` (the source's float `divmod`/`round` of
`time.time()` is outside the embedding): add `_SECONDS_BEFORE_EPOCH` to the
seconds, draw a value, and encode it.  A Y10K `ValueError` raised by
`_valueToZid` propagates uncaught out of `__post_init__`. -/
def initNew (seconds nanos r : Nat) : Except ZidErr Zid :=
  match valueToZid (secondsAndNanosToValue (seconds + SECONDS_BEFORE_EPOCH) nanos r) with
  | some t => .ok ⟨t⟩
  | none => .error .y10k

/-- Nanoseconds from the minimum supported instant (year 1) to the clock
reading `(seconds, nanos)`, as embedded by `_initNew`/`_secondsAndNanosToValue`. -/
def instant (seconds nanos : Nat) : Nat :=
  nanos + NANOS_PER_SECOND * (seconds + SECONDS_BEFORE_EPOCH)

/-- Model of the Python values the `Zid` constructor accepts: `None`, an
`int`, a `str` (held as a character list), or a `uuid.UUID` (held as its
128-bit integer). -/
inductive PyValue where
  | none
  | int (n : Int)
  | str (s : List Char)
  | uuidv (u : Nat)

/-- Python truthiness of the constructor argument (`if not value`): `None`,
`0`, and the empty string are falsy; `uuid.UUID` defines no `__bool__` and is
always truthy. -/
def falsy : PyValue → Bool
  | .none => true
  | .int n => n = 0
  | .str s => s = []
  | .uuidv _ => false

/-- Hexadecimal digits of `n` (most significant first, lowercase). -/
def hexDigits (n : Nat) : List Char := Nat.toDigits 16 n

/-- Model of `str(uuid.UUID(int=n))`: 32 lowercase hex digits, zero-padded,
with dashes after hex digits 8, 12, 16 and 20. -/
def uuidHexStr (n : Nat) : List Char :=
  let h := List.replicate (32 - (hexDigits n).length) '0' ++ hexDigits n
  h.take 8 ++ ['-'] ++ (h.drop 8).take 4 ++ ['-'] ++ (h.drop 12).take 4
    ++ ['-'] ++ (h.drop 16).take 4 ++ ['-'] ++ h.drop 20

/-- Model of Python `str(value)` for the constructor argument. -/
def pyStr : PyValue → List Char
  | .none => "None".data
  | .int n => (toString n).data
  | .str s => s
  | .uuidv u => uuidHexStr u

/-- Python's default `str.strip` whitespace, restricted to ASCII (the inputs
the claims concern contain no non-ASCII whitespace). -/
def isPySpace (c : Char) : Bool :=
  c = ' ' || c = '\t' || c = '\n' || c = '\r' || c = Char.ofNat 11 || c = Char.ofNat 12

/-- Model of Python `str.strip()`: drop leading and trailing whitespace. -/
def pyStrip (s : List Char) : List Char :=
  ((s.dropWhile isPySpace).reverse.dropWhile isPySpace).reverse

/-- Model of `Zid.__post_init__` with the clock/randomness environment made
explicit: falsy arguments go to `_initNew`; otherwise the argument's string
form is stripped and either `_initFromUuid` (for `uuid.UUID` inputs, using
`value.int`) or `_initFromZid` runs, any `ValueError` being re-raised as
`ValueError(f'Invalid zid: {zid!r}')` carrying the stripped string. -/
def postInit (v : PyValue) (seconds nanos r : Nat) : Except ZidErr Zid :=
  if falsy v then initNew seconds nanos r
  else
    let zs := pyStrip (pyStr v)
    let res : Option Zid :=
      match v with
      | .uuidv u => initFromUuid u
      | _ => initFromZid zs
    match res with
    | some z => .ok z
    | Option.none => .error (.invalidZid zs)

/-- A well-formed Zid text: length 23 with, at every position, a character
drawn from that position's alphabet (so `'_'` exactly at the separator
positions 7 and 15 and alphanumeric digits elsewhere). -/
def WellFormed (s : List Char) : Prop :=
  s.length = 23 ∧ ∀ i < 23, s.getD i ' ' ∈ DIGIT_ALPHABETS.getD i []

instance : DecidablePred WellFormed := fun s => by
  unfold WellFormed; infer_instance

/-! Helper definitions and lemmas about the codec. -/

/-- Product of the alphabet sizes of a per-position alphabet list. -/
def prodLen (as : List (List Char)) : Nat := as.foldr (fun a p => a.length * p) 1

/-- Big-endian mixed-radix digit expansion: the clean structural counterpart
of the `_valueToZid` loop, used to reason about it. -/
def encodeBE : List (List Char) → Nat → List Char
  | [], _ => []
  | a :: as, v => a.getD (v / prodLen as) ' ' :: encodeBE as (v % prodLen as)

theorem card_eq_pow : CARDINALITY = 62 ^ 21 := by decide

theorem card_eq_prodLen : CARDINALITY = prodLen DIGIT_ALPHABETS := by decide

theorem alnum_pairwise : List.Pairwise (· < ·) ALPHANUMERIC := by decide

theorem mem_digit_alphabets {a : List Char} (h : a ∈ DIGIT_ALPHABETS) :
    a = ALPHANUMERIC ∨ a = ['_'] := by
  simp only [DIGIT_ALPHABETS, List.mem_map] at h
  obtain ⟨d, _, rfl⟩ := h
  split
  · exact Or.inr rfl
  · exact Or.inl rfl

theorem digit_alphabets_ne_nil {a : List Char} (h : a ∈ DIGIT_ALPHABETS) : a ≠ [] := by
  rcases mem_digit_alphabets h with h' | h' <;> simp [h', ALPHANUMERIC]

theorem digit_alphabets_pairwise {a : List Char} (h : a ∈ DIGIT_ALPHABETS) :
    List.Pairwise (· < ·) a := by
  rcases mem_digit_alphabets h with h' | h' <;> subst h'
  · exact alnum_pairwise
  · simp

theorem char_lt_asymm {c d : Char} (h : c < d) : ¬ d < c :=
  fun h2 => absurd (lt_trans h h2) (by simp)

theorem digit_alphabets_nodup {a : List Char} (h : a ∈ DIGIT_ALPHABETS) : a.Nodup :=
  (digit_alphabets_pairwise h).imp ne_of_lt

theorem prodLen_pos {as : List (List Char)} (h : ∀ a ∈ as, a ≠ []) : 0 < prodLen as := by
  induction as with
  | nil => simp [prodLen]
  | cons a as ih =>
    have ha : a ≠ [] := h a (by simp)
    have : 0 < a.length := List.length_pos.mpr ha
    have := ih (fun b hb => h b (by simp [hb]))
    simpa [prodLen] using Nat.mul_pos ‹0 < a.length› this

theorem pyIndex_some {a : List Char} {c : Char} {i : Nat} (h : pyIndex a c = some i) :
    ∃ hlt : i < a.length, a.get ⟨i, hlt⟩ = c := by
  induction a generalizing i with
  | nil => simp [pyIndex] at h
  | cons d rest ih =>
    by_cases hd : d = c
    · simp [pyIndex, hd] at h
      subst h
      exact ⟨by simp, hd⟩
    · simp only [pyIndex, hd, if_false, Option.map_eq_some'] at h
      obtain ⟨j, hj, rfl⟩ := h
      obtain ⟨hlt, hget⟩ := ih hj
      exact ⟨by simpa using Nat.succ_lt_succ hlt, hget⟩

theorem pyIndex_eq_none_iff {a : List Char} {c : Char} : pyIndex a c = none ↔ c ∉ a := by
  induction a with
  | nil => simp [pyIndex]
  | cons d rest ih =>
    by_cases hd : d = c
    · simp [pyIndex, hd]
    · simp [pyIndex, hd, Option.map_eq_none', ih, Ne.symm hd]

theorem pyIndex_of_mem {a : List Char} {c : Char} (h : c ∈ a) : ∃ i, pyIndex a c = some i := by
  rcases ho : pyIndex a c with _ | i
  · exact absurd (pyIndex_eq_none_iff.mp ho) (by simp [h])
  · exact ⟨i, rfl⟩

theorem pyIndex_get {a : List Char} (hnd : a.Nodup) {i : Nat} (h : i < a.length) :
    pyIndex a (a.get ⟨i, h⟩) = some i := by
  induction a generalizing i with
  | nil => simp at h
  | cons d rest ih =>
    cases i with
    | zero => simp [pyIndex]
    | succ j =>
      have hj : j < rest.length := by simpa using Nat.lt_of_succ_lt_succ h
      have hget : (d :: rest).get ⟨j + 1, h⟩ = rest.get ⟨j, hj⟩ := rfl
      have hdne : d ≠ rest.get ⟨j, hj⟩ := by
        intro hcontra
        have : d ∈ rest := hcontra ▸ List.get_mem rest j hj
        exact (List.nodup_cons.mp hnd).1 this
      rw [hget]
      simp only [pyIndex, hdne, if_false]
      rw [ih (List.nodup_cons.mp hnd).2 hj]
      rfl

theorem valueToZidGo_append (l₁ l₂ : List (List Char)) (v : Nat) :
    valueToZidGo (l₁ ++ l₂) v =
      ((valueToZidGo l₁ v).1 ++ (valueToZidGo l₂ (valueToZidGo l₁ v).2).1,
        (valueToZidGo l₂ (valueToZidGo l₁ v).2).2) := by
  induction l₁ generalizing v with
  | nil => simp [valueToZidGo]
  | cons a rest ih => simp [valueToZidGo, ih]

theorem valueToZidGo_reverse (as : List (List Char)) (ha : ∀ a ∈ as, a ≠ []) (v : Nat) :
    valueToZidGo as.reverse v = ((encodeBE as (v % prodLen as)).reverse, v / prodLen as) := by
  induction as generalizing v with
  | nil => simp [valueToZidGo, encodeBE, prodLen]
  | cons a rest ih =>
    have hrest : ∀ b ∈ rest, b ≠ [] := fun b hb => ha b (by simp [hb])
    have hP : 0 < prodLen rest := prodLen_pos hrest
    have hla : 0 < a.length := List.length_pos.mpr (ha a (by simp))
    have h1 : (a :: rest).reverse = rest.reverse ++ [a] := by simp
    rw [h1, valueToZidGo_append, ih hrest]
    have hgo : valueToZidGo [a] (v / prodLen rest) =
        ([a.getD (v / prodLen rest % a.length) ' '], v / prodLen rest / a.length) := by
      simp [valueToZidGo]
    rw [hgo]
    have hprod : prodLen (a :: rest) = a.length * prodLen rest := rfl
    dsimp only
    rw [Prod.mk.injEq]
    constructor
    · show (encodeBE rest (v % prodLen rest)).reverse ++ [a.getD (v / prodLen rest % a.length) ' ']
        = (encodeBE (a :: rest) (v % prodLen (a :: rest))).reverse
      have henc : encodeBE (a :: rest) (v % prodLen (a :: rest)) =
          a.getD (v % (a.length * prodLen rest) / prodLen rest) ' '
            :: encodeBE rest (v % (a.length * prodLen rest) % prodLen rest) := by
        rw [hprod]; rfl
      rw [henc]
      have h2 : v % (a.length * prodLen rest) / prodLen rest = v / prodLen rest % a.length := by
        rw [Nat.mul_comm a.length (prodLen rest)]
        exact Nat.mod_mul_right_div_self v (prodLen rest) a.length
      have h3 : v % (a.length * prodLen rest) % prodLen rest = v % prodLen rest :=
        Nat.mod_mod_of_dvd v ⟨a.length, Nat.mul_comm a.length (prodLen rest)⟩
      rw [h2, h3]
      simp
    · show v / prodLen rest / a.length = v / prodLen (a :: rest)
      rw [hprod, Nat.div_div_eq_div_mul, Nat.mul_comm]

theorem valueToZid_eq_encodeBE {v : Nat} (hv : v < CARDINALITY) :
    valueToZid v = some (encodeBE DIGIT_ALPHABETS v) := by
  have hv' : v < prodLen DIGIT_ALPHABETS := card_eq_prodLen ▸ hv
  unfold valueToZid
  rw [valueToZidGo_reverse DIGIT_ALPHABETS (fun a ha => digit_alphabets_ne_nil ha) v]
  simp [Nat.div_eq_of_lt hv', Nat.mod_eq_of_lt hv']

theorem valueToZid_none {v : Nat} (hv : CARDINALITY ≤ v) : valueToZid v = none := by
  have hpos : 0 < prodLen DIGIT_ALPHABETS :=
    prodLen_pos (fun a ha => digit_alphabets_ne_nil ha)
  have hv' : prodLen DIGIT_ALPHABETS ≤ v := card_eq_prodLen ▸ hv
  have hne : v / prodLen DIGIT_ALPHABETS ≠ 0 := by
    intro h0
    exact absurd ((Nat.div_eq_zero_iff hpos).mp h0) (Nat.not_lt.mpr hv')
  unfold valueToZid
  rw [valueToZidGo_reverse DIGIT_ALPHABETS (fun a ha => digit_alphabets_ne_nil ha) v]
  exact if_neg hne

theorem encodeBE_length (as : List (List Char)) (v : Nat) :
    (encodeBE as v).length = as.length := by
  induction as generalizing v with
  | nil => simp [encodeBE]
  | cons a rest ih => simp [encodeBE, ih]

theorem encodeBE_forall₂ {as : List (List Char)} (ha : ∀ a ∈ as, a ≠ [])
    {v : Nat} (hv : v < prodLen as) :
    List.Forall₂ (· ∈ ·) (encodeBE as v) as := by
  induction as generalizing v with
  | nil => simp [encodeBE]
  | cons a rest ih =>
    have hrest : ∀ b ∈ rest, b ≠ [] := fun b hb => ha b (by simp [hb])
    have hP : 0 < prodLen rest := prodLen_pos hrest
    have hidx : v / prodLen rest < a.length := by
      have : v < a.length * prodLen rest := hv
      exact Nat.div_lt_of_lt_mul (by rwa [Nat.mul_comm] at this)
    refine List.Forall₂.cons ?_ (ih hrest (Nat.mod_lt v hP))
    rw [List.getD_eq_getElem a ' ' (by exact hidx)]
    exact List.getElem_mem hidx

theorem toIntGo_encode {as : List (List Char)} (hnd : ∀ a ∈ as, a.Nodup)
    (ha : ∀ a ∈ as, a ≠ []) {v : Nat} (hv : v < prodLen as) (acc : Nat) :
    toIntGo ((encodeBE as v).zip as) acc = some (acc * prodLen as + v) := by
  induction as generalizing v acc with
  | nil =>
    have : v = 0 := by simpa [prodLen] using hv
    simp [encodeBE, toIntGo, prodLen, this]
  | cons a rest ih =>
    have hndr : ∀ b ∈ rest, b.Nodup := fun b hb => hnd b (by simp [hb])
    have har : ∀ b ∈ rest, b ≠ [] := fun b hb => ha b (by simp [hb])
    have hP : 0 < prodLen rest := prodLen_pos har
    have hidx : v / prodLen rest < a.length := by
      have : v < a.length * prodLen rest := hv
      exact Nat.div_lt_of_lt_mul (by rwa [Nat.mul_comm] at this)
    have hgetD : a.getD (v / prodLen rest) ' ' = a.get ⟨v / prodLen rest, hidx⟩ := by
      rw [List.getD_eq_getElem a ' ' hidx]; rfl
    show toIntGo ((a.getD (v / prodLen rest) ' '
        :: encodeBE rest (v % prodLen rest)).zip (a :: rest)) acc = _
    rw [List.zip_cons_cons]
    show (match pyIndex a (a.getD (v / prodLen rest) ' ') with
      | some i => toIntGo ((encodeBE rest (v % prodLen rest)).zip rest) (acc * a.length + i)
      | none => none) = _
    rw [hgetD, pyIndex_get (hnd a (by simp)) hidx]
    show toIntGo ((encodeBE rest (v % prodLen rest)).zip rest)
      (acc * a.length + v / prodLen rest) = _
    rw [ih hndr har (Nat.mod_lt v hP)]
    congr 1
    have hdm := Nat.div_add_mod v (prodLen rest)
    have : acc * prodLen (a :: rest) + v
        = (acc * a.length + v / prodLen rest) * prodLen rest + v % prodLen rest := by
      have hp : prodLen (a :: rest) = a.length * prodLen rest := rfl
      calc acc * prodLen (a :: rest) + v
          = acc * (a.length * prodLen rest)
            + (prodLen rest * (v / prodLen rest) + v % prodLen rest) := by rw [hp, hdm]
        _ = (acc * a.length + v / prodLen rest) * prodLen rest + v % prodLen rest := by ring
    rw [this]

theorem toIntGo_none {pairs : List (Char × List Char)} {c : Char} {a : List Char}
    (hmem : (c, a) ∈ pairs) (hc : c ∉ a) : ∀ acc, toIntGo pairs acc = none := by
  induction pairs with
  | nil => cases hmem
  | cons p rest ih =>
    intro acc
    rcases List.mem_cons.mp hmem with heq | hmem'
    · subst heq
      show (match pyIndex a c with
        | some i => toIntGo rest (acc * a.length + i)
        | none => none) = none
      rw [pyIndex_eq_none_iff.mpr hc]
    · obtain ⟨c', a'⟩ := p
      show (match pyIndex a' c' with
        | some i => toIntGo rest (acc * a'.length + i)
        | none => none) = none
      rcases h : pyIndex a' c' with _ | i
      · rfl
      · exact ih hmem' _

theorem decode_encode {as : List (List Char)} {s : List Char}
    (hf : List.Forall₂ (· ∈ ·) s as) :
    ∃ d, d < prodLen as ∧ encodeBE as d = s ∧
      ∀ acc, toIntGo (s.zip as) acc = some (acc * prodLen as + d) := by
  induction hf with
  | nil => exact ⟨0, by simp [prodLen], by simp [encodeBE], by simp [toIntGo, prodLen]⟩
  | @cons c b l₁ l₂ hmem htail ih =>
    obtain ⟨d', hd'P, henc', hgo'⟩ := ih
    obtain ⟨i, hi⟩ := pyIndex_of_mem hmem
    obtain ⟨hilt, higet⟩ := pyIndex_some hi
    have hP : 0 < prodLen l₂ := Nat.lt_of_le_of_lt (Nat.zero_le d') hd'P
    refine ⟨i * prodLen l₂ + d', ?_, ?_, ?_⟩
    · show i * prodLen l₂ + d' < prodLen (b :: l₂)
      have h1 : i * prodLen l₂ + d' < (i + 1) * prodLen l₂ := by
        rw [Nat.succ_mul]; exact Nat.add_lt_add_left hd'P _
      have h2 : (i + 1) * prodLen l₂ ≤ b.length * prodLen l₂ :=
        Nat.mul_le_mul_right _ (Nat.succ_le_of_lt hilt)
      exact Nat.lt_of_lt_of_le h1 h2
    · show b.getD ((i * prodLen l₂ + d') / prodLen l₂) ' '
        :: encodeBE l₂ ((i * prodLen l₂ + d') % prodLen l₂) = c :: l₁
      have hdiv : (i * prodLen l₂ + d') / prodLen l₂ = i := by
        rw [Nat.mul_comm i (prodLen l₂), Nat.mul_add_div hP, Nat.div_eq_of_lt hd'P,
          Nat.add_zero]
      have hmod : (i * prodLen l₂ + d') % prodLen l₂ = d' := by
        rw [Nat.add_comm, Nat.add_mul_mod_self_right, Nat.mod_eq_of_lt hd'P]
      rw [hdiv, hmod, henc', List.getD_eq_getElem b ' ' hilt]
      exact congrArg (· :: l₁) higet
    · intro acc
      show (match pyIndex b c with
        | some j => toIntGo (l₁.zip l₂) (acc * b.length + j)
        | none => none) = _
      rw [hi]
      show toIntGo (l₁.zip l₂) (acc * b.length + i) = _
      rw [hgo' (acc * b.length + i)]
      congr 1
      have hp : prodLen (b :: l₂) = b.length * prodLen l₂ := rfl
      rw [hp]; ring

theorem list_char_lt_irrefl (l : List Char) : ¬ l < l := by
  induction l with
  | nil => intro h; cases h
  | cons c cs ih =>
    intro h
    cases h with
    | rel hc => exact absurd hc (by simp)
    | cons ht => exact ih ht

theorem encodeBE_lt {as : List (List Char)} (hs : ∀ a ∈ as, List.Pairwise (· < ·) a)
    (ha : ∀ a ∈ as, a ≠ []) : ∀ {v₁ v₂ : Nat}, v₁ < v₂ → v₂ < prodLen as →
    encodeBE as v₁ < encodeBE as v₂ := by
  induction as with
  | nil =>
    intro v₁ v₂ h12 h2
    have : v₂ < 1 := by simpa [prodLen] using h2
    omega
  | cons a rest ih =>
    intro v₁ v₂ h12 h2
    have hsr : ∀ b ∈ rest, List.Pairwise (· < ·) b := fun b hb => hs b (by simp [hb])
    have har : ∀ b ∈ rest, b ≠ [] := fun b hb => ha b (by simp [hb])
    have hP : 0 < prodLen rest := prodLen_pos har
    have hidx2 : v₂ / prodLen rest < a.length := by
      have : v₂ < a.length * prodLen rest := h2
      exact Nat.div_lt_of_lt_mul (by rwa [Nat.mul_comm] at this)
    have hle : v₁ / prodLen rest ≤ v₂ / prodLen rest :=
      Nat.div_le_div_right (Nat.le_of_lt h12)
    show a.getD (v₁ / prodLen rest) ' ' :: encodeBE rest (v₁ % prodLen rest)
      < a.getD (v₂ / prodLen rest) ' ' :: encodeBE rest (v₂ % prodLen rest)
    rcases Nat.lt_or_ge (v₁ / prodLen rest) (v₂ / prodLen rest) with hlt | hge
    · have hidx1 : v₁ / prodLen rest < a.length := Nat.lt_trans hlt hidx2
      have hchar : a.getD (v₁ / prodLen rest) ' ' < a.getD (v₂ / prodLen rest) ' ' := by
        rw [List.getD_eq_getElem a ' ' hidx1, List.getD_eq_getElem a ' ' hidx2]
        exact List.pairwise_iff_get.mp (hs a (by simp))
          ⟨v₁ / prodLen rest, hidx1⟩ ⟨v₂ / prodLen rest, hidx2⟩ hlt
      exact List.Lex.rel hchar
    · have heq : v₁ / prodLen rest = v₂ / prodLen rest := Nat.le_antisymm hle hge
      have e1 := Nat.div_add_mod v₁ (prodLen rest)
      have e2 := Nat.div_add_mod v₂ (prodLen rest)
      have hmodlt : v₁ % prodLen rest < v₂ % prodLen rest := by
        rw [heq] at e1; omega
      have htl : encodeBE rest (v₁ % prodLen rest) < encodeBE rest (v₂ % prodLen rest) :=
        ih hsr har hmodlt (Nat.mod_lt v₂ hP)
      rw [heq]
      exact List.Lex.cons htl

theorem list_char_lt_asymm {l₁ l₂ : List Char} (h : l₁ < l₂) : ¬ l₂ < l₁ := by
  induction h with
  | nil => intro h2; cases h2
  | rel hr =>
    intro h2
    cases h2 with
    | rel hr2 => exact char_lt_asymm hr hr2
    | cons _ => exact absurd hr (by simp)
  | cons _ ih =>
    intro h2
    cases h2 with
    | rel hr2 => exact absurd hr2 (by simp)
    | cons ht2 => exact ih ht2

theorem digit_alphabets_length : DIGIT_ALPHABETS.length = 23 := by decide

theorem wellFormed_iff {s : List Char} :
    WellFormed s ↔ List.Forall₂ (· ∈ ·) s DIGIT_ALPHABETS := by
  have hd := digit_alphabets_length
  rw [List.forall₂_iff_get]
  unfold WellFormed
  constructor
  · rintro ⟨hlen, hmem⟩
    refine ⟨by omega, ?_⟩
    intro i h₁ h₂
    have := hmem i (by omega)
    simp only [List.get_eq_getElem]
    rwa [List.getD_eq_getElem s ' ' h₁, List.getD_eq_getElem DIGIT_ALPHABETS [] h₂] at this
  · rintro ⟨hlen, hmem⟩
    refine ⟨by omega, ?_⟩
    intro i hi
    have h₁ : i < s.length := by omega
    have h₂ : i < DIGIT_ALPHABETS.length := by omega
    rw [List.getD_eq_getElem s ' ' h₁, List.getD_eq_getElem DIGIT_ALPHABETS [] h₂]
    have := hmem i h₁ h₂
    simpa only [List.get_eq_getElem] using this

theorem wellFormed_length {s : List Char} (h : WellFormed s) : s.length = 23 := h.1

/-- Decoding a well-formed string succeeds, the value is in range, and
re-encoding the value reproduces the string exactly. -/
theorem toInt_wellFormed {s : List Char} (h : WellFormed s) :
    ∃ v, toInt s = some v ∧ v < CARDINALITY ∧ valueToZid v = some s := by
  obtain ⟨d, hdP, henc, hgo⟩ := decode_encode (wellFormed_iff.mp h)
  have hdc : d < CARDINALITY := card_eq_prodLen ▸ hdP
  refine ⟨d, ?_, hdc, ?_⟩
  · show toIntGo (s.zip DIGIT_ALPHABETS) 0 = some d
    rw [hgo 0, Nat.zero_mul, Nat.zero_add]
  · rw [valueToZid_eq_encodeBE hdc, henc]

/-- Encoding an in-range value yields a well-formed string that decodes back
to the value. -/
theorem valueToZid_wellFormed {v : Nat} (hv : v < CARDINALITY) :
    ∃ s, valueToZid v = some s ∧ WellFormed s ∧ toInt s = some v := by
  have hv' : v < prodLen DIGIT_ALPHABETS := card_eq_prodLen ▸ hv
  refine ⟨encodeBE DIGIT_ALPHABETS v, valueToZid_eq_encodeBE hv, ?_, ?_⟩
  · exact wellFormed_iff.mpr
      (encodeBE_forall₂ (fun a ha => digit_alphabets_ne_nil ha) hv')
  · show toIntGo ((encodeBE DIGIT_ALPHABETS v).zip DIGIT_ALPHABETS) 0 = some v
    rw [toIntGo_encode (fun a ha => digit_alphabets_nodup ha)
      (fun a ha => digit_alphabets_ne_nil ha) hv' 0, Nat.zero_mul, Nat.zero_add]

theorem initFromZid_wellFormed {s : List Char} (h : WellFormed s) :
    initFromZid s = some ⟨s⟩ := by
  obtain ⟨v, hv, _, _⟩ := toInt_wellFormed h
  unfold initFromZid
  rw [if_pos (by rw [wellFormed_length h, digit_alphabets_length]), hv]
  rfl

theorem alnum_not_space {c : Char} (h : c ∈ ALPHANUMERIC) : isPySpace c = false := by
  have hall : ∀ x ∈ ALPHANUMERIC, isPySpace x = false := by decide
  exact hall c h

theorem dropWhile_eq_self_of_head {l : List Char}
    (h : ∀ hne : l ≠ [], isPySpace (l.head hne) = false) :
    l.dropWhile isPySpace = l := by
  cases l with
  | nil => rfl
  | cons c cs =>
    have hc : isPySpace c = false := h (by simp)
    rw [List.dropWhile_cons, hc]
    simp

theorem pyStrip_eq_self {l : List Char}
    (hh : ∀ hne : l ≠ [], isPySpace (l.head hne) = false)
    (hl : ∀ hne : l ≠ [], isPySpace (l.getLast hne) = false) :
    pyStrip l = l := by
  unfold pyStrip
  rw [dropWhile_eq_self_of_head hh]
  rw [dropWhile_eq_self_of_head ?_]
  · exact List.reverse_reverse l
  · intro hne
    have hlne : l ≠ [] := by simpa using hne
    rw [List.head_reverse hne]
    exact hl hlne

theorem wellFormed_head_alnum {s : List Char} (h : WellFormed s)
    (hne : s ≠ []) : s.head hne ∈ ALPHANUMERIC := by
  have h0 := h.2 0 (by omega)
  have hlt : (0 : Nat) < s.length := by rw [wellFormed_length h]; omega
  rw [List.getD_eq_getElem s ' ' hlt] at h0
  have : s.head hne = s[0] := (List.get_mk_zero hlt).symm
  rw [this]
  simpa [DIGIT_ALPHABETS, SIZE3, ALPHANUMERIC] using h0

theorem wellFormed_getLast_alnum {s : List Char} (h : WellFormed s)
    (hne : s ≠ []) : s.getLast hne ∈ ALPHANUMERIC := by
  have h22 := h.2 22 (by omega)
  have hlt : (22 : Nat) < s.length := by rw [wellFormed_length h]; omega
  rw [List.getD_eq_getElem s ' ' hlt] at h22
  rw [List.getLast_eq_getElem]
  have : s.length - 1 = 22 := by rw [wellFormed_length h]
  simp only [this]
  simpa [DIGIT_ALPHABETS, SIZE3, ALPHANUMERIC] using h22

theorem pyStrip_wellFormed {s : List Char} (h : WellFormed s) : pyStrip s = s :=
  pyStrip_eq_self
    (fun hne => alnum_not_space (wellFormed_head_alnum h hne))
    (fun hne => alnum_not_space (wellFormed_getLast_alnum h hne))

theorem pyStrip_length_le (s : List Char) : (pyStrip s).length ≤ s.length := by
  unfold pyStrip
  calc ((s.dropWhile isPySpace).reverse.dropWhile isPySpace).reverse.length
      = ((s.dropWhile isPySpace).reverse.dropWhile isPySpace).length :=
        List.length_reverse _
    _ ≤ (s.dropWhile isPySpace).reverse.length :=
        List.IsSuffix.length_le (List.dropWhile_suffix _)
    _ = (s.dropWhile isPySpace).length := List.length_reverse _
    _ ≤ s.length := List.IsSuffix.length_le (List.dropWhile_suffix _)

theorem pyStrip_eq_of_length {s : List Char} (h : (pyStrip s).length = s.length) :
    pyStrip s = s := by
  have ht : s.dropWhile isPySpace <:+ s := List.dropWhile_suffix _
  have hu : (s.dropWhile isPySpace).reverse.dropWhile isPySpace
      <:+ (s.dropWhile isPySpace).reverse := List.dropWhile_suffix _
  have hlen1 : (pyStrip s).length
      = ((s.dropWhile isPySpace).reverse.dropWhile isPySpace).length := by
    unfold pyStrip
    exact List.length_reverse _
  have hle1 : ((s.dropWhile isPySpace).reverse.dropWhile isPySpace).length
      ≤ (s.dropWhile isPySpace).length := by
    have hr := List.IsSuffix.length_le hu
    simpa using hr
  have hle2 : (s.dropWhile isPySpace).length ≤ s.length :=
    List.IsSuffix.length_le ht
  have heq2 : (s.dropWhile isPySpace).length = s.length := by omega
  have ht' : s.dropWhile isPySpace = s := ht.eq_of_length heq2
  have hequ : ((s.dropWhile isPySpace).reverse.dropWhile isPySpace).length
      = (s.dropWhile isPySpace).reverse.length := by
    simp only [List.length_reverse]
    omega
  have hu' : (s.dropWhile isPySpace).reverse.dropWhile isPySpace
      = (s.dropWhile isPySpace).reverse := hu.eq_of_length hequ
  unfold pyStrip
  rw [hu', List.reverse_reverse, ht']

/-- Claim C1: for every valid Zid `z`, constructing a Zid from `z`'s text
form yields a Zid equal to `z` (`from_text(text_of(z)) == z`, equality being
dataclass equality, i.e. equality of the text forms).  The constructor is
`__post_init__` on the string value; the clock/randomness environment is
irrelevant on this path. -/
theorem zid_text_roundtrip (z : Zid) (hwf : WellFormed z.zid) (cs cn r : Nat) :
    postInit (.str z.zid) cs cn r = .ok z := by
  obtain ⟨s⟩ := z
  simp only at hwf
  have hne : s ≠ [] := by
    intro h0
    have := wellFormed_length hwf
    rw [h0] at this
    simp at this
  unfold postInit
  have hf : falsy (.str s) = false := by simp [falsy, hne]
  rw [hf]
  simp only [Bool.false_eq_true, if_false, pyStr]
  rw [pyStrip_wellFormed hwf, initFromZid_wellFormed hwf]

/-- Witness for C1 at the concrete all-zeros Zid. -/
theorem zid_text_roundtrip_witness :
    WellFormed (Zid.mk "0000000_0000000_0000000".data).zid ∧
      postInit (.str (Zid.mk "0000000_0000000_0000000".data).zid) 0 0 0
        = .ok (Zid.mk "0000000_0000000_0000000".data) :=
  ⟨by decide, zid_text_roundtrip (Zid.mk "0000000_0000000_0000000".data) (by decide) 0 0 0⟩

/-- Claim C7: a text string of the correct length (23) containing, at some
position, a character outside that position's alphabet (an out-of-alphabet
character in a digit position, or a separator in the wrong position) is
rejected with a `ValueError` carrying the (stripped) offending input; the
input is never truncated or coerced into some Zid. -/
theorem zid_parse_invalid_rejected (s : List Char) (cs cn r : Nat)
    (hlen : s.length = 23)
    (hbad : ∃ i, i < 23 ∧ s.getD i ' ' ∉ DIGIT_ALPHABETS.getD i []) :
    postInit (.str s) cs cn r = .error (.invalidZid (pyStrip s)) := by
  have hne : s ≠ [] := by intro h0; rw [h0] at hlen; simp at hlen
  unfold postInit
  have hf : falsy (.str s) = false := by simp [falsy, hne]
  rw [hf]
  simp only [Bool.false_eq_true, if_false, pyStr]
  by_cases hstrip : pyStrip s = s
  · rw [hstrip]
    obtain ⟨i, hi, hmem⟩ := hbad
    have h₁ : i < s.length := by omega
    have h₂ : i < DIGIT_ALPHABETS.length := by rw [digit_alphabets_length]; omega
    have hz : i < (s.zip DIGIT_ALPHABETS).length := by
      rw [List.length_zip]
      exact lt_min h₁ h₂
    have hpair : (s[i], DIGIT_ALPHABETS[i]) ∈ s.zip DIGIT_ALPHABETS := by
      have hgz := @List.getElem_zip Char (List Char) s DIGIT_ALPHABETS i hz
      rw [← hgz]
      exact List.getElem_mem hz
    have hnotmem : s[i] ∉ DIGIT_ALPHABETS[i] := by
      rwa [List.getD_eq_getElem s ' ' h₁, List.getD_eq_getElem DIGIT_ALPHABETS [] h₂] at hmem
    have htoint : toInt s = none := toIntGo_none hpair hnotmem 0
    unfold initFromZid
    rw [if_pos (by rw [hlen, digit_alphabets_length]), htoint]
    rfl
  · have hlt : (pyStrip s).length < s.length := by
      rcases Nat.lt_or_ge (pyStrip s).length s.length with h | h
      · exact h
      · have heq : (pyStrip s).length = s.length := le_antisymm (pyStrip_length_le s) h
        exact absurd (pyStrip_eq_of_length heq) hstrip
    have hz : initFromZid (pyStrip s) = none := by
      unfold initFromZid
      rw [if_neg (by rw [digit_alphabets_length]; omega)]
    rw [hz]

/-- Witness for C7: correct length, with `'!'` (outside the alphabet) in the
final digit position. -/
theorem zid_parse_invalid_rejected_witness :
    "0000000_0000000_000000!".data.length = 23 ∧
      postInit (.str "0000000_0000000_000000!".data) 0 0 0
        = .error (.invalidZid (pyStrip "0000000_0000000_000000!".data)) :=
  ⟨by decide, zid_parse_invalid_rejected "0000000_0000000_000000!".data 0 0 0
    (by decide) ⟨22, by decide, by decide⟩⟩

theorem valueToZid_toInt {v : Nat} {t : List Char} (hv : v < CARDINALITY)
    (e : valueToZid v = some t) : toInt t = some v ∧ WellFormed t := by
  obtain ⟨s, hs, hwf, hti⟩ := valueToZid_wellFormed hv
  rw [e] at hs
  obtain rfl : t = s := by injection hs
  exact ⟨hti, hwf⟩

theorem valueToZid_lt_iff {v₁ v₂ : Nat} {t₁ t₂ : List Char}
    (h₁ : v₁ < CARDINALITY) (h₂ : v₂ < CARDINALITY)
    (e₁ : valueToZid v₁ = some t₁) (e₂ : valueToZid v₂ = some t₂) :
    t₁ < t₂ ↔ v₁ < v₂ := by
  have hs : ∀ a ∈ DIGIT_ALPHABETS, List.Pairwise (· < ·) a :=
    fun a ha => digit_alphabets_pairwise ha
  have hn : ∀ a ∈ DIGIT_ALPHABETS, a ≠ [] := fun a ha => digit_alphabets_ne_nil ha
  have he₁ : t₁ = encodeBE DIGIT_ALPHABETS v₁ := by
    have h := valueToZid_eq_encodeBE h₁
    rw [e₁] at h
    exact Option.some.inj h
  have he₂ : t₂ = encodeBE DIGIT_ALPHABETS v₂ := by
    have h := valueToZid_eq_encodeBE h₂
    rw [e₂] at h
    exact Option.some.inj h
  constructor
  · intro hlt
    rcases Nat.lt_trichotomy v₁ v₂ with h | h | h
    · exact h
    · subst h
      rw [he₁, ← he₂] at hlt
      exact absurd hlt (list_char_lt_irrefl t₂)
    · have : t₂ < t₁ := by
        rw [he₁, he₂]
        exact encodeBE_lt hs hn h (card_eq_prodLen ▸ h₁)
      exact absurd hlt (list_char_lt_asymm this)
  · intro hlt
    rw [he₁, he₂]
    exact encodeBE_lt hs hn hlt (card_eq_prodLen ▸ h₂)

theorem initNew_ok {s n r : Nat} {z : Zid} (h : initNew s n r = .ok z) :
    valueToZid (secondsAndNanosToValue (s + SECONDS_BEFORE_EPOCH) n r) = some z.zid ∧
      secondsAndNanosToValue (s + SECONDS_BEFORE_EPOCH) n r < CARDINALITY := by
  unfold initNew at h
  rcases hv : valueToZid (secondsAndNanosToValue (s + SECONDS_BEFORE_EPOCH) n r)
    with _ | t
  · rw [hv] at h
    exact absurd h (by simp)
  · rw [hv] at h
    injection h with h'
    subst h'
    have hb : secondsAndNanosToValue (s + SECONDS_BEFORE_EPOCH) n r < CARDINALITY := by
      by_contra hge
      rw [valueToZid_none (Nat.le_of_not_lt hge)] at hv
      exact absurd hv (by simp)
    exact ⟨rfl, hb⟩

theorem secondsAndNanosToValue_instant (s n r : Nat) :
    secondsAndNanosToValue (s + SECONDS_BEFORE_EPOCH) n r
      = ZIDS_PER_NANO * instant s n + r := rfl

/-- Claim C2: ordering is consistent across representations.  First
conjunct: for any two in-range values, the encoded text forms compare
lexicographically exactly as the decoded integers do (and decoding restores
those integers).  Second conjunct: for any two clock instants `t₁ < t₂`
(whenever generation succeeds, with the random offsets inside the `randrange`
bounds), the Zid generated at `t₁` sorts strictly before the one generated
at `t₂`, both as text and numerically. -/
theorem zid_order_consistent :
    (∀ v₁ v₂ t₁ t₂, v₁ < CARDINALITY → v₂ < CARDINALITY →
      valueToZid v₁ = some t₁ → valueToZid v₂ = some t₂ →
      toInt t₁ = some v₁ ∧ toInt t₂ = some v₂ ∧ (t₁ < t₂ ↔ v₁ < v₂))
    ∧ (∀ s₁ n₁ r₁ s₂ n₂ r₂ z₁ z₂, r₁ < ZIDS_PER_NANO → r₂ < ZIDS_PER_NANO →
      instant s₁ n₁ < instant s₂ n₂ →
      initNew s₁ n₁ r₁ = .ok z₁ → initNew s₂ n₂ r₂ = .ok z₂ →
      z₁.zid < z₂.zid ∧
        ∃ w₁ w₂, toInt z₁.zid = some w₁ ∧ toInt z₂.zid = some w₂ ∧ w₁ < w₂) := by
  constructor
  · intro v₁ v₂ t₁ t₂ h₁ h₂ e₁ e₂
    exact ⟨(valueToZid_toInt h₁ e₁).1, (valueToZid_toInt h₂ e₂).1,
      valueToZid_lt_iff h₁ h₂ e₁ e₂⟩
  · intro s₁ n₁ r₁ s₂ n₂ r₂ z₁ z₂ hr₁ hr₂ hinst e₁ e₂
    obtain ⟨hv₁, hc₁⟩ := initNew_ok e₁
    obtain ⟨hv₂, hc₂⟩ := initNew_ok e₂
    set w₁ := secondsAndNanosToValue (s₁ + SECONDS_BEFORE_EPOCH) n₁ r₁ with hw₁
    set w₂ := secondsAndNanosToValue (s₂ + SECONDS_BEFORE_EPOCH) n₂ r₂ with hw₂
    have hlt : w₁ < w₂ := by
      rw [hw₁, hw₂, secondsAndNanosToValue_instant, secondsAndNanosToValue_instant]
      calc ZIDS_PER_NANO * instant s₁ n₁ + r₁
          < ZIDS_PER_NANO * instant s₁ n₁ + ZIDS_PER_NANO := by omega
        _ = ZIDS_PER_NANO * (instant s₁ n₁ + 1) := by ring
        _ ≤ ZIDS_PER_NANO * instant s₂ n₂ := Nat.mul_le_mul_left _ hinst
        _ ≤ ZIDS_PER_NANO * instant s₂ n₂ + r₂ := Nat.le_add_right _ _
    refine ⟨?_, w₁, w₂, (valueToZid_toInt hc₁ hv₁).1, (valueToZid_toInt hc₂ hv₂).1, hlt⟩
    exact (valueToZid_lt_iff hc₁ hc₂ hv₁ hv₂).mpr hlt

/-- Witness for C2: values 0 and 1 for the first conjunct; clock readings
one nanosecond apart (epoch seconds 0, nanos 0 and 1) for the second. -/
theorem zid_order_consistent_witness :
    (toInt "0000000_0000000_0000000".data = some 0 ∧
      toInt "0000000_0000000_0000001".data = some 1 ∧
      ("0000000_0000000_0000000".data < "0000000_0000000_0000001".data ↔ (0 : Nat) < 1))
    ∧ ((Zid.mk "CCxSBSf_NptoMDX_ep9Qe6C".data).zid
        < (Zid.mk "CCxSBSf_NptoWRT_ErwwjyX".data).zid ∧
      ∃ w₁ w₂, toInt (Zid.mk "CCxSBSf_NptoMDX_ep9Qe6C".data).zid = some w₁ ∧
        toInt (Zid.mk "CCxSBSf_NptoWRT_ErwwjyX".data).zid = some w₂ ∧ w₁ < w₂) :=
  ⟨zid_order_consistent.1 0 1 "0000000_0000000_0000000".data
      "0000000_0000000_0000001".data (by decide) (by decide) (by decide) (by decide),
    zid_order_consistent.2 0 0 0 0 1 0
      (Zid.mk "CCxSBSf_NptoMDX_ep9Qe6C".data) (Zid.mk "CCxSBSf_NptoWRT_ErwwjyX".data)
      (by decide) (by decide) (by decide) (by rfl) (by rfl)⟩

theorem uuidInt_eq (v : Nat) :
    uuidInt v = v / 2 ^ 78 * 2 ^ 80 + 3 * 2 ^ 78 + v % 2 ^ 78 := by
  unfold uuidInt UUID_LOW_BITS
  norm_num

theorem initFromUuid_eq (u : Nat) :
    initFromUuid u = if u / 2 ^ 78 % 4 = 3 then
      (valueToZid (u / 2 ^ 80 * 2 ^ 78 + u % 2 ^ 78)).bind initFromZid
    else none := by
  unfold initFromUuid UUID_LOW_BITS
  norm_num

theorem uuidInt_check (v : Nat) : uuidInt v / 2 ^ 78 % 4 = 3 := by
  rw [uuidInt_eq]
  omega

theorem uuidInt_strip (v : Nat) :
    uuidInt v / 2 ^ 80 * 2 ^ 78 + uuidInt v % 2 ^ 78 = v := by
  rw [uuidInt_eq]
  have h1 : (v / 2 ^ 78 * 2 ^ 80 + 3 * 2 ^ 78 + v % 2 ^ 78) / 2 ^ 80 = v / 2 ^ 78 := by
    omega
  have h2 : (v / 2 ^ 78 * 2 ^ 80 + 3 * 2 ^ 78 + v % 2 ^ 78) % 2 ^ 78 = v % 2 ^ 78 := by
    omega
  rw [h1, h2, Nat.mul_comm]
  exact Nat.div_add_mod v (2 ^ 78)

/-- Claim C3: first conjunct — for every valid Zid `z`, converting to its
UUID integer (`Zid.uuid` on the decoded value) and constructing a Zid back
via `_initFromUuid` returns a Zid equal to `z`.  Second conjunct — any UUID
whose two fixed version bits (bit positions 79 and 78, the pattern the code
checks) do not match `11` is rejected as not representing a Zid. -/
theorem zid_uuid_roundtrip :
    (∀ z : Zid, WellFormed z.zid →
      ∃ v, toInt z.zid = some v ∧ initFromUuid (uuidInt v) = some z)
    ∧ (∀ u, u / 2 ^ UUID_LOW_BITS % 4 ≠ 3 → initFromUuid u = none) := by
  constructor
  · intro z hwf
    obtain ⟨v, hti, hvc, hvz⟩ := toInt_wellFormed hwf
    refine ⟨v, hti, ?_⟩
    rw [initFromUuid_eq, if_pos (uuidInt_check v), uuidInt_strip v, hvz]
    show initFromZid z.zid = some z
    obtain ⟨s⟩ := z
    exact initFromZid_wellFormed hwf
  · intro u hu
    unfold initFromUuid
    exact if_neg hu

/-- Witness for C3 at the all-zeros Zid and at the UUID integer 0 (whose
version bits are not `11`). -/
theorem zid_uuid_roundtrip_witness :
    (WellFormed (Zid.mk "0000000_0000000_0000000".data).zid ∧
      ∃ v, toInt (Zid.mk "0000000_0000000_0000000".data).zid = some v ∧
        initFromUuid (uuidInt v) = some (Zid.mk "0000000_0000000_0000000".data))
    ∧ ((0 : Nat) / 2 ^ UUID_LOW_BITS % 4 ≠ 3 ∧ initFromUuid 0 = none) :=
  ⟨⟨by decide, zid_uuid_roundtrip.1 (Zid.mk "0000000_0000000_0000000".data) (by decide)⟩,
    by decide, zid_uuid_roundtrip.2 0 (by decide)⟩

/-- Counterexample to claim C5 as stated: the UUID of the valid all-zeros
Zid (decoded integer 0) has hex digit 12 = `'c'`, not `'8'`, at the 13th
hex-digit position (1-indexed from the most significant end of the 32-digit
hex form, i.e. `u / 16 ^ 19 % 16`). -/
theorem zid_uuid_not_v8_cex :
    valueToZid 0 = some "0000000_0000000_0000000".data ∧
      toInt "0000000_0000000_0000000".data = some 0 ∧
      uuidInt 0 / 16 ^ 19 % 16 = 12 ∧ uuidInt 0 / 16 ^ 19 % 16 ≠ 8 := by
  refine ⟨by decide, by decide, by decide, by decide⟩

/-- Claim C5 as amended: the UUID integer is obtained purely by splicing the
two fixed bits `11` immediately above the low 78 bits of the Zid's integer
`v` (no upper-bound offset is added): the low 78 bits and the bits above
them are preserved, the two inserted bits sit at positions 79–78 (the top
half of the version nibble), the 13th hex digit is therefore `12 + (v mod
2^78) / 2^76` — always in 12..15 and never 8 — and the result fits in the
128 bits a UUID requires. -/
theorem zid_uuid_bit_splice (v : Nat) (hv : v < CARDINALITY) :
    uuidInt v % 2 ^ 78 = v % 2 ^ 78 ∧
    uuidInt v / 2 ^ 80 = v / 2 ^ 78 ∧
    uuidInt v / 2 ^ 78 % 4 = 3 ∧
    uuidInt v / 16 ^ 19 % 16 = 12 + v % 2 ^ 78 / 2 ^ 76 ∧
    uuidInt v / 16 ^ 19 % 16 ≠ 8 ∧
    uuidInt v < 2 ^ 128 := by
  have hc : v < 2 ^ 126 := by
    have : CARDINALITY < 2 ^ 126 := by decide
    omega
  rw [uuidInt_eq]
  have h16 : (16 : Nat) ^ 19 = 2 ^ 76 := by norm_num
  rw [h16]
  refine ⟨by omega, by omega, by omega, by omega, by omega, ?_⟩
  have ha : v / 2 ^ 78 < 2 ^ 48 := by omega
  have hb : v % 2 ^ 78 < 2 ^ 78 := Nat.mod_lt v (by norm_num)
  calc v / 2 ^ 78 * 2 ^ 80 + 3 * 2 ^ 78 + v % 2 ^ 78
      < v / 2 ^ 78 * 2 ^ 80 + 2 ^ 80 := by omega
    _ = (v / 2 ^ 78 + 1) * 2 ^ 80 := by ring
    _ ≤ 2 ^ 48 * 2 ^ 80 := Nat.mul_le_mul_right _ (by omega)
    _ = 2 ^ 128 := by norm_num

/-- Witness for the amended C5 at `v = 0`. -/
theorem zid_uuid_bit_splice_witness :
    (0 : Nat) < CARDINALITY ∧
      (uuidInt 0 % 2 ^ 78 = 0 % 2 ^ 78 ∧
      uuidInt 0 / 2 ^ 80 = 0 / 2 ^ 78 ∧
      uuidInt 0 / 2 ^ 78 % 4 = 3 ∧
      uuidInt 0 / 16 ^ 19 % 16 = 12 + 0 % 2 ^ 78 / 2 ^ 76 ∧
      uuidInt 0 / 16 ^ 19 % 16 ≠ 8 ∧
      uuidInt 0 < 2 ^ 128) :=
  ⟨by decide, zid_uuid_bit_splice 0 (by decide)⟩

/-- Counterexample to claim C4 as stated: there is no two-symbol alphabet
from which every valid Zid text's leading character is drawn — three valid
Zids (for values 0, 62^20 and 2·62^20) begin with the three distinct digits
`'0'`, `'1'`, `'2'`. -/
theorem zid_text_no_carry_cex :
    ¬ ∃ c₁ c₂ : Char, ∀ v t, v < CARDINALITY → valueToZid v = some t →
      t.getD 0 ' ' = c₁ ∨ t.getD 0 ' ' = c₂ := by
  rintro ⟨c₁, c₂, h⟩
  have h0 := h 0 "0000000_0000000_0000000".data (by decide) (by decide)
  have h1 := h (62 ^ 20) "1000000_0000000_0000000".data (by decide) (by decide)
  have h2 := h (2 * 62 ^ 20) "2000000_0000000_0000000".data (by decide) (by decide)
  have e0 : ("0000000_0000000_0000000".data).getD 0 ' ' = '0' := by decide
  have e1 : ("1000000_0000000_0000000".data).getD 0 ' ' = '1' := by decide
  have e2 : ("2000000_0000000_0000000".data).getD 0 ' ' = '2' := by decide
  rw [e0] at h0
  rw [e1] at h1
  rw [e2] at h2
  rcases h0 with h0 | h0 <;> rcases h1 with h1 | h1 <;> rcases h2 with h2 | h2 <;>
    first
      | exact absurd (h0.trans h1.symm) (by decide)
      | exact absurd (h0.trans h2.symm) (by decide)
      | exact absurd (h1.trans h2.symm) (by decide)

/-- Claim C4 as amended: every valid Zid text has fixed total length 23 and
consists of three 7-character groups of digits from the 62-character sorted
alphanumeric alphabet, separated by the fixed `'_'` at positions 7 and 15
(0-indexed); there is no leading carry symbol — the first character is
itself an ordinary digit of the 62-character alphabet. -/
theorem zid_text_format (v : Nat) (hv : v < CARDINALITY) :
    ∃ t, valueToZid v = some t ∧ t.length = 23 ∧
      ∀ i, i < 23 →
        ((i = 7 ∨ i = 15) → t.getD i ' ' = '_') ∧
        (i ≠ 7 → i ≠ 15 → t.getD i ' ' ∈ ALPHANUMERIC) := by
  obtain ⟨s, hs, hwf, _⟩ := valueToZid_wellFormed hv
  refine ⟨s, hs, wellFormed_length hwf, ?_⟩
  intro i hi
  have hmem := hwf.2 i hi
  constructor
  · rintro (rfl | rfl)
    · have e : DIGIT_ALPHABETS.getD 7 [] = ['_'] := by decide
      rw [e] at hmem
      simpa using hmem
    · have e : DIGIT_ALPHABETS.getD 15 [] = ['_'] := by decide
      rw [e] at hmem
      simpa using hmem
  · intro h7 h15
    have key : ∀ j, j < 23 → j ≠ 7 → j ≠ 15 →
        DIGIT_ALPHABETS.getD j [] = ALPHANUMERIC := by decide
    rwa [key i hi h7 h15] at hmem

/-- Witness for the amended C4 at `v = 0`. -/
theorem zid_text_format_witness :
    (0 : Nat) < CARDINALITY ∧
      ∃ t, valueToZid 0 = some t ∧ t.length = 23 ∧
        ∀ i, i < 23 →
          ((i = 7 ∨ i = 15) → t.getD i ' ' = '_') ∧
          (i ≠ 7 → i ≠ 15 → t.getD i ' ' ∈ ALPHANUMERIC) :=
  ⟨by decide, zid_text_format 0 (by decide)⟩

/-- Counterexample to claim C6 as stated: the generator keeps no process-wide
record and never resamples — two generations that observe the identical clock
reading (epoch seconds 0, nanos 0) but different random draws succeed,
produce two distinct Zids, and embed exactly the same timestamp value, so
the embedded timestamps of a sequence of fresh Zids need not be pairwise
distinct when the clock repeats a reading. -/
theorem zid_generator_same_instant_cex :
    initNew 0 0 0 = .ok (Zid.mk "CCxSBSf_NptoMDX_ep9Qe6C".data) ∧
    initNew 0 0 1 = .ok (Zid.mk "CCxSBSf_NptoMDX_ep9Qe6D".data) ∧
    (Zid.mk "CCxSBSf_NptoMDX_ep9Qe6C".data) ≠ (Zid.mk "CCxSBSf_NptoMDX_ep9Qe6D".data) ∧
    ∃ w₁ w₂, toInt "CCxSBSf_NptoMDX_ep9Qe6C".data = some w₁ ∧
      toInt "CCxSBSf_NptoMDX_ep9Qe6D".data = some w₂ ∧ w₁ ≠ w₂ ∧
      w₁ / ZIDS_PER_NANO = w₂ / ZIDS_PER_NANO := by
  refine ⟨by rfl, by rfl, by decide, ?_⟩
  refine ⟨secondsAndNanosToValue SECONDS_BEFORE_EPOCH 0 0,
    secondsAndNanosToValue SECONDS_BEFORE_EPOCH 0 1, by rfl, by rfl, by decide, by decide⟩

/-- Claim C6 as amended: `_initNew` is stateless — each Zid derives from one
clock sample, with no record of the previous instant and no resampling; two
generations from the same clock reading (with random draws inside the
`randrange` bounds) embed exactly the same timestamp, namely the reading's
nanoseconds-from-year-1 instant, so distinctness of same-instant Zids rests
solely on the random offsets. -/
theorem zid_generator_stateless (s n r₁ r₂ : Nat) (z₁ z₂ : Zid)
    (h₁ : r₁ < ZIDS_PER_NANO) (h₂ : r₂ < ZIDS_PER_NANO)
    (e₁ : initNew s n r₁ = .ok z₁) (e₂ : initNew s n r₂ = .ok z₂) :
    ∃ w₁ w₂, toInt z₁.zid = some w₁ ∧ toInt z₂.zid = some w₂ ∧
      w₁ / ZIDS_PER_NANO = instant s n ∧ w₂ / ZIDS_PER_NANO = instant s n := by
  obtain ⟨hv₁, hc₁⟩ := initNew_ok e₁
  obtain ⟨hv₂, hc₂⟩ := initNew_ok e₂
  have hz : 0 < ZIDS_PER_NANO := by decide
  have hdiv : ∀ r, r < ZIDS_PER_NANO →
      (ZIDS_PER_NANO * instant s n + r) / ZIDS_PER_NANO = instant s n := by
    intro r hr
    rw [Nat.mul_add_div hz, Nat.div_eq_of_lt hr, Nat.add_zero]
  exact ⟨_, _, (valueToZid_toInt hc₁ hv₁).1, (valueToZid_toInt hc₂ hv₂).1,
    hdiv r₁ h₁, hdiv r₂ h₂⟩

/-- Witness for the amended C6 at clock reading (0, 0) with draws 0 and 1. -/
theorem zid_generator_stateless_witness :
    ∃ w₁ w₂, toInt (Zid.mk "CCxSBSf_NptoMDX_ep9Qe6C".data).zid = some w₁ ∧
      toInt (Zid.mk "CCxSBSf_NptoMDX_ep9Qe6D".data).zid = some w₂ ∧
      w₁ / ZIDS_PER_NANO = instant 0 0 ∧ w₂ / ZIDS_PER_NANO = instant 0 0 :=
  zid_generator_stateless 0 0 0 1 (Zid.mk "CCxSBSf_NptoMDX_ep9Qe6C".data)
    (Zid.mk "CCxSBSf_NptoMDX_ep9Qe6D".data) (by decide) (by decide) (by rfl) (by rfl)

/-- Claim C9: every well-formed 23-character text parses successfully, and
its decoded integer's embedded timestamp (`_toInt() // _ZIDS_PER_NANO`, in
nanoseconds from year 1) lies strictly inside the supported
year-1-to-9999 range, because the text cardinality 62^21 is at most
`_ZIDS_PER_NANO * _NANOS_PER_9_999_YEARS`; the out-of-range failure is
unreachable from well-formed text. -/
theorem zid_wellformed_parse_in_range (s : List Char) (h : WellFormed s) :
    initFromZid s = some ⟨s⟩ ∧
    (∃ v, toInt s = some v ∧ v / ZIDS_PER_NANO < NANOS_PER_9_999_YEARS) ∧
    CARDINALITY ≤ ZIDS_PER_NANO * NANOS_PER_9_999_YEARS := by
  have hkey : CARDINALITY ≤ ZIDS_PER_NANO * NANOS_PER_9_999_YEARS := by decide
  refine ⟨initFromZid_wellFormed h, ?_, hkey⟩
  obtain ⟨v, hv, hvc, _⟩ := toInt_wellFormed h
  refine ⟨v, hv, ?_⟩
  have hz : 0 < ZIDS_PER_NANO := by decide
  rw [Nat.div_lt_iff_lt_mul hz]
  calc v < CARDINALITY := hvc
    _ ≤ ZIDS_PER_NANO * NANOS_PER_9_999_YEARS := hkey
    _ = NANOS_PER_9_999_YEARS * ZIDS_PER_NANO := Nat.mul_comm _ _

/-- Witness for C9 at the all-zeros text. -/
theorem zid_wellformed_parse_in_range_witness :
    initFromZid "0000000_0000000_0000000".data = some ⟨"0000000_0000000_0000000".data⟩ ∧
    (∃ v, toInt "0000000_0000000_0000000".data = some v ∧
      v / ZIDS_PER_NANO < NANOS_PER_9_999_YEARS) ∧
    CARDINALITY ≤ ZIDS_PER_NANO * NANOS_PER_9_999_YEARS :=
  zid_wellformed_parse_in_range "0000000_0000000_0000000".data (by decide)

/-- Claim C10: any falsy constructor argument (`None`, `0`, the empty
string — and an omitted argument defaults to `None`) is not rejected as
invalid input: `__post_init__` silently generates a fresh Zid from the
current clock reading and the secure random draw (whenever the drawn value
is inside the encodable range). -/
theorem zid_falsy_generates (v : PyValue) (cs cn r : Nat) (hfalsy : falsy v = true)
    (hrange : secondsAndNanosToValue (cs + SECONDS_BEFORE_EPOCH) cn r < CARDINALITY) :
    ∃ t, valueToZid (secondsAndNanosToValue (cs + SECONDS_BEFORE_EPOCH) cn r) = some t ∧
      postInit v cs cn r = .ok ⟨t⟩ := by
  obtain ⟨t, ht, _, _⟩ := valueToZid_wellFormed hrange
  refine ⟨t, ht, ?_⟩
  unfold postInit
  rw [hfalsy]
  simp only [if_true]
  unfold initNew
  rw [ht]

/-- Witness for C10 with argument `None` at clock (0, 0) and draw 0. -/
theorem zid_falsy_generates_witness :
    falsy .none = true ∧
      secondsAndNanosToValue (0 + SECONDS_BEFORE_EPOCH) 0 0 < CARDINALITY ∧
      ∃ t, valueToZid (secondsAndNanosToValue (0 + SECONDS_BEFORE_EPOCH) 0 0) = some t ∧
        postInit .none 0 0 0 = .ok ⟨t⟩ :=
  ⟨by decide, by decide, zid_falsy_generates .none 0 0 0 (by decide) (by decide)⟩

/-- Modelled from the spec: the repository source has no byte-sequence
conversion, but the spec declares a binary form as a fixed-width big-endian
unsigned integer of 15 bytes.  `BYTES_WIDTH` is that declared width. -/
def BYTES_WIDTH : Nat := 15

/-- Modelled from the spec: `from_bytes` — interpret a byte sequence as a
big-endian unsigned integer. -/
def fromBytes (b : List Nat) : Nat := b.foldl (fun acc x => acc * 256 + x) 0

/-- Modelled from the spec: big-endian serialization of `n` into exactly
`w` bytes (most significant first). -/
def toBytesAux : Nat → Nat → List Nat
  | 0, _ => []
  | w + 1, n => toBytesAux w (n / 256) ++ [n % 256]

/-- Modelled from the spec: `bytes_of` — the 15-byte big-endian view. -/
def bytesOf (n : Nat) : List Nat := toBytesAux BYTES_WIDTH n

theorem toBytesAux_fromBytes (b : List Nat) :
    ∀ w, b.length = w → (∀ x ∈ b, x < 256) → toBytesAux w (fromBytes b) = b := by
  induction b using List.reverseRecOn with
  | nil =>
    intro w hw _
    subst hw
    rfl
  | append_singleton b' x ih =>
    intro w hw hx
    have hw' : w = b'.length + 1 := by
      rw [← hw]
      simp
    subst hw'
    have hxlt : x < 256 := hx x (by simp)
    have hfb : fromBytes (b' ++ [x]) = fromBytes b' * 256 + x := by
      unfold fromBytes
      rw [List.foldl_append]
      rfl
    show toBytesAux (b'.length + 1) (fromBytes (b' ++ [x])) = b' ++ [x]
    unfold toBytesAux
    rw [hfb]
    have hdiv : (fromBytes b' * 256 + x) / 256 = fromBytes b' := by omega
    have hmod : (fromBytes b' * 256 + x) % 256 = x := by omega
    rw [hdiv, hmod, ih b'.length rfl (fun y hy => hx y (by simp [hy]))]

/-- Claim C8 (modelled from the spec): a Zid's binary form is a fixed-width
sequence of 15 big-endian bytes, and for every byte sequence `b` of that
width, `bytes_of(from_bytes(b)) == b`. -/
theorem zid_bytes_roundtrip (b : List Nat) (hlen : b.length = BYTES_WIDTH)
    (hbyte : ∀ x ∈ b, x < 256) :
    bytesOf (fromBytes b) = b ∧ (bytesOf (fromBytes b)).length = 15 := by
  have h : bytesOf (fromBytes b) = b := toBytesAux_fromBytes b BYTES_WIDTH hlen hbyte
  exact ⟨h, by rw [h, hlen]; rfl⟩

/-- Witness for C8 at a concrete 15-byte sequence. -/
theorem zid_bytes_roundtrip_witness :
    ([255, 0, 1, 2, 3, 4, 5, 6, 7, 8, 9, 10, 11, 12, 255] : List Nat).length
        = BYTES_WIDTH ∧
      bytesOf (fromBytes [255, 0, 1, 2, 3, 4, 5, 6, 7, 8, 9, 10, 11, 12, 255])
          = [255, 0, 1, 2, 3, 4, 5, 6, 7, 8, 9, 10, 11, 12, 255] ∧
        (bytesOf (fromBytes [255, 0, 1, 2, 3, 4, 5, 6, 7, 8, 9, 10, 11, 12, 255])).length
          = 15 :=
  ⟨by decide, zid_bytes_roundtrip [255, 0, 1, 2, 3, 4, 5, 6, 7, 8, 9, 10, 11, 12, 255]
    (by decide) (by decide)⟩
